import Mathlib

/-!
Verification development for the `voice_rag` backend pipeline
(`backend/pipeline/orchestrator.py`, `sessions.py`, `llm.py`).

The Python source is shallowly embedded: strings are `List Char`,
the stateful `SentenceBuffer` is a pure state-passing function,
the regular expressions of the source are hand-compiled to
character-level scanners with Python `re` leftmost / greedy / lazy
semantics, and the async collaborators (STT, LLM, TTS, retrieval
store) are abstract functions supplied through an environment record.
-/

namespace VoiceRag

/-- Python `str.isspace` / regex `\s` membership, restricted to the ASCII
whitespace characters (space, tab, newline, carriage return, vertical tab,
form feed); all strings handled by the pipeline in these claims are ASCII. -/
def isPyWs (c : Char) : Bool :=
  c = ' ' || c = '\t' || c = '\n' || c = '\r' || c = '\x0b' || c = '\x0c'

/-- Python `str.strip()`: drop leading and trailing whitespace. -/
def pyStrip (l : List Char) : List Char :=
  ((l.dropWhile isPyWs).reverse.dropWhile isPyWs).reverse

/-- The non-whitespace characters of a string, in order. -/
def nonWs (l : List Char) : List Char :=
  l.filter (fun c => !(isPyWs c))

/-- Regex `[.!?]` (lookbehind class of `_SENTENCE_END_RE`). -/
def isSentPunct (c : Char) : Bool :=
  c = '.' || c = '!' || c = '?'

/-- Regex `[A-Z"“]` (lookahead class of `_SENTENCE_END_RE`). -/
def isSentStart (c : Char) : Bool :=
  ('A' ≤ c && c ≤ 'Z') || c = '"' || c = '“'

/-- Regex `\w` (ASCII part): letters, digits, underscore. -/
def isWordChar (c : Char) : Bool :=
  ('a' ≤ c && c ≤ 'z') || ('A' ≤ c && c ≤ 'Z') || ('0' ≤ c && c ≤ '9') || c = '_'

/-- Regex `[A-Z]`. -/
def isAsciiUpper (c : Char) : Bool :=
  'A' ≤ c && c ≤ 'Z'

/-- Regex `[A-Za-z]`. -/
def isAsciiLetter (c : Char) : Bool :=
  ('a' ≤ c && c ≤ 'z') || ('A' ≤ c && c ≤ 'Z')

/-- Regex `\d` (ASCII digits). -/
def isAsciiDigit (c : Char) : Bool :=
  '0' ≤ c && c ≤ '9'

/-- Regex `[,;:]` (clause punctuation of `_CLAUSE_SPLIT_RE`). -/
def isClausePunct (c : Char) : Bool :=
  c = ',' || c = ';' || c = ':'

/-- `MIN_SENTENCE_LENGTH` in `orchestrator.py`. -/
def MIN_SENTENCE_LENGTH : Nat := 20

/-- `MAX_BUFFER_LENGTH` in `orchestrator.py`. -/
def MAX_BUFFER_LENGTH : Nat := 500

/-- The `_ABBREVIATIONS` frozenset of `orchestrator.py`. -/
def _ABBREVIATIONS : List (List Char) :=
  ["Mr", "Mrs", "Ms", "Dr", "Prof", "Sr", "Jr", "St", "Ave", "Blvd",
   "Dept", "Est", "Fig", "Gen", "Gov", "Sgt", "Corp", "Inc", "Ltd", "Co",
   "vs", "etc", "approx", "dept", "est", "min", "max", "misc", "tech"].map String.toList

/-- Index of the first occurrence of `"\n\n"` in the buffer
(the split point of Python `self._buffer.split("\n\n", 1)`). -/
def findDoubleNl : List Char → Option Nat
  | [] => none
  | [_] => none
  | a :: b :: rest =>
    if a = '\n' && b = '\n' then some 0
    else (findDoubleNl (b :: rest)).map (· + 1)

/-- Lookbehind test of `_SENTENCE_END_RE`: the character before the match
start is sentence punctuation. -/
def prevIsPunct : Option Char → Bool
  | some p => isSentPunct p
  | none => false

/-- Lookahead test of `_SENTENCE_END_RE` after the greedy `\s+`: the first
character after the maximal whitespace run of `l` is in `[A-Z"“]`. -/
def sentRunOk (l : List Char) : Bool :=
  match l.drop (l.takeWhile isPyWs).length with
  | nxt :: _ => isSentStart nxt
  | [] => false

/-- Left-to-right scan for `_SENTENCE_END_RE = (?<=[.!?])\s+(?=[A-Z"“])`,
relative to the start of `l`; `prev` is the character before `l` (the
lookbehind position).  A match starting at a whitespace character `c`
greedily consumes the maximal whitespace run (backtracking cannot stop
earlier, because the lookahead class is disjoint from whitespace) and
requires the next character to be in the sentence-start class.
Returns `(start, end)` of the leftmost match. -/
def findSentEndRel (prev : Option Char) : List Char → Option (Nat × Nat)
  | [] => none
  | c :: rest =>
    if prevIsPunct prev && isPyWs c && sentRunOk (c :: rest) then
      some (0, ((c :: rest).takeWhile isPyWs).length)
    else
      (findSentEndRel (some c) rest).map (fun pr => (pr.1 + 1, pr.2 + 1))

/-- Python `_SENTENCE_END_RE.search(buffer, search_start)`:
leftmost match whose start is at least `sstart`. -/
def findSentEnd (buf : List Char) (sstart : Nat) : Option (Nat × Nat) :=
  let prev := if sstart = 0 then none else buf[sstart - 1]?
  (findSentEndRel prev (buf.drop sstart)).map (fun pr => (sstart + pr.1, sstart + pr.2))

/-- Python `re.search(r'(\w+)\.$', candidate)`: if the candidate ends in a
period preceded by at least one word character, the maximal trailing run of
word characters before that period (= `group(1)`). -/
def lastWordBeforeDot (candidate : List Char) : Option (List Char) :=
  match candidate.reverse with
  | '.' :: rest =>
    let w := rest.takeWhile isWordChar
    if w = [] then none else some w.reverse
  | _ => none

/-- Abbreviation guard: the last word of the candidate is in `_ABBREVIATIONS`. -/
def isAbbrevEnd (candidate : List Char) : Bool :=
  match lastWordBeforeDot candidate with
  | some w => _ABBREVIATIONS.contains w
  | none => false

/-- `_SINGLE_LETTER_ABBR_RE = \b[A-Z]\.$`: candidate ends with an uppercase
letter and a period, with a word boundary before the letter. -/
def isSingleLetterAbbrEnd (candidate : List Char) : Bool :=
  match candidate.reverse with
  | '.' :: u :: rest =>
    isAsciiUpper u && (match rest with | [] => true | b :: _ => !isWordChar b)
  | ['.'] => false
  | _ => false

/-- `_DECIMAL_END_RE = \d\.$`: candidate ends with a digit and a period. -/
def isDecimalEnd (candidate : List Char) : Bool :=
  match candidate.reverse with
  | '.' :: d :: _ => isAsciiDigit d
  | _ => false

/-- The paragraph pass of `SentenceBuffer.add`:
`while "\n\n" in self._buffer: before, after = split; append stripped before`. -/
def paraSplit : Nat → List Char → List (List Char) → List (List Char) × List Char
  | 0, buf, acc => (acc, buf)
  | fuel + 1, buf, acc =>
    match findDoubleNl buf with
    | none => (acc, buf)
    | some i =>
      let sentence := pyStrip (buf.take i)
      let rest := buf.drop (i + 2)
      paraSplit fuel rest (if sentence = [] then acc else acc ++ [sentence])

/-- The four sequential guard checks of the sentence-punctuation pass, each
of which makes Python `continue` with `search_start = match.end()`:
abbreviation ending, single-letter abbreviation ending, decimal ending,
candidate shorter than `MIN_SENTENCE_LENGTH`. -/
def skipCandidate (candidate : List Char) : Bool :=
  isAbbrevEnd candidate || isSingleLetterAbbrEnd candidate || isDecimalEnd candidate ||
    candidate.length < MIN_SENTENCE_LENGTH

/-- The sentence-punctuation pass of `SentenceBuffer.add`: repeatedly search
from `search_start`, skip abbreviation / single-letter / decimal / too-short
candidates by advancing `search_start` past the match, otherwise emit the
stripped candidate and restart the search on the remaining buffer. -/
def sentLoop : Nat → List Char → Nat → List (List Char) → List (List Char) × List Char
  | 0, buf, _, acc => (acc, buf)
  | fuel + 1, buf, sstart, acc =>
    match findSentEnd buf sstart with
    | none => (acc, buf)
    | some (ms, me) =>
      let candidate := pyStrip (buf.take ms)
      if skipCandidate candidate then sentLoop fuel buf me acc
      else sentLoop fuel (buf.drop me) 0 (acc ++ [candidate])

/-- Lookahead test of `_CLAUSE_SPLIT_RE` after the greedy `\s+`: the first
character after the maximal whitespace run of `rest` is an ASCII letter. -/
def clauseRunOk (rest : List Char) : Bool :=
  match rest.drop (rest.takeWhile isPyWs).length with
  | nxt :: _ => isAsciiLetter nxt
  | [] => false

/-- A match of `_CLAUSE_SPLIT_RE = [,;:]\s+(?=[A-Za-z])` starting at the head
of `l`: clause punctuation, then a maximal nonempty whitespace run, then a
letter; returns the match end (relative). -/
def clauseMatchRelAt : List Char → Option Nat
  | [] => none
  | c :: rest =>
    if isClausePunct c && 0 < (rest.takeWhile isPyWs).length && clauseRunOk rest then
      some (1 + (rest.takeWhile isPyWs).length)
    else none

/-- All `(start, end)` positions where `_CLAUSE_SPLIT_RE` matches, left to
right.  Matches of this pattern can never start inside an earlier match
(the interior of a match is whitespace, which is not clause punctuation),
so this list coincides with Python's non-overlapping `finditer`. -/
def clauseMatches : List Char → List (Nat × Nat)
  | [] => []
  | c :: rest =>
    (clauseMatchRelAt (c :: rest)).elim
      ((clauseMatches rest).map (fun pr => (pr.1 + 1, pr.2 + 1)))
      (fun e => (0, e) :: (clauseMatches rest).map (fun pr => (pr.1 + 1, pr.2 + 1)))

/-- The last match of `_CLAUSE_SPLIT_RE` in the buffer
(`matches[-1]` in the force-split block). -/
def lastClauseMatch (buf : List Char) : Option (Nat × Nat) :=
  (clauseMatches buf).getLast?

/-- The force-split block of `SentenceBuffer.add`: if the buffer exceeds
`MAX_BUFFER_LENGTH` and a clause match exists, emit everything up to and
including the last clause punctuation (stripped) and keep the text after
the matched whitespace. -/
def forceSplit (sentences : List (List Char)) (buf : List Char) :
    List (List Char) × List Char :=
  if MAX_BUFFER_LENGTH < buf.length then
    match lastClauseMatch buf with
    | some (p, e) =>
      let sentence := pyStrip (buf.take (p + 1))
      (if sentence = [] then sentences else sentences ++ [sentence], buf.drop e)
    | none => (sentences, buf)
  else (sentences, buf)

/-- `SentenceBuffer.add`: append the token, run the paragraph pass, the
sentence-punctuation pass, then the force-split block.  Returns the emitted
sentences and the new buffer.  The fuel arguments strictly dominate the
number of loop iterations (each paragraph split removes two characters;
each sentence-pass step either advances `search_start` or shortens the
buffer), so the fueled loops compute exactly the Python loops. -/
def SentenceBuffer.add (buffer token : List Char) : List (List Char) × List Char :=
  let buf0 := buffer ++ token
  let r1 := paraSplit (buf0.length + 1) buf0 []
  let r2 := sentLoop (2 * r1.2.length + 1) r1.2 0 r1.1
  forceSplit r2.1 r2.2

/-- `SentenceBuffer.flush`: return the stripped remainder (or `None`) and
clear the buffer. -/
def SentenceBuffer.flush (buffer : List Char) : Option (List Char) × List Char :=
  let remaining := pyStrip buffer
  (if remaining = [] then none else some remaining, [])

/-- Feed a list of fragments through `add` in order, starting from the given
buffer; collect all emitted sentences and the final buffer. -/
def runAdds (buffer : List Char) : List (List Char) → List (List Char) × List Char
  | [] => ([], buffer)
  | f :: rest =>
    let r := SentenceBuffer.add buffer f
    let r2 := runAdds r.2 rest
    (r.1 ++ r2.1, r2.2)

/-! ### Whitespace-accounting lemmas for the segmenter -/

theorem nonWs_append (a b : List Char) : nonWs (a ++ b) = nonWs a ++ nonWs b :=
  List.filter_append ..

theorem nonWs_dropWhile (l : List Char) : nonWs (l.dropWhile isPyWs) = nonWs l := by
  induction l with
  | nil => rfl
  | cons c rest ih =>
    by_cases h : isPyWs c
    · simpa [nonWs, List.dropWhile_cons, List.filter_cons, h] using ih
    · simp [nonWs, List.dropWhile_cons, List.filter_cons, h]

theorem nonWs_reverse (l : List Char) : nonWs l.reverse = (nonWs l).reverse :=
  List.filter_reverse ..

theorem nonWs_pyStrip (l : List Char) : nonWs (pyStrip l) = nonWs l := by
  unfold pyStrip
  rw [nonWs_reverse, nonWs_dropWhile, nonWs_reverse, List.reverse_reverse, nonWs_dropWhile]

theorem nonWs_of_pyStrip_nil {l : List Char} (h : pyStrip l = []) : nonWs l = [] := by
  have := nonWs_pyStrip l
  rw [h] at this
  exact this.symm

theorem takeWhile_getElem? (p : Char → Bool) :
    ∀ (l : List Char) (j : Nat), j < (l.takeWhile p).length →
      ∃ c, l[j]? = some c ∧ p c = true := by
  intro l
  induction l with
  | nil => intro j h; simp [List.takeWhile] at h
  | cons a rest ih =>
    intro j h
    by_cases hp : p a
    · cases j with
      | zero => exact ⟨a, by simp, hp⟩
      | succ j' =>
        rw [List.takeWhile_cons, if_pos hp, List.length_cons] at h
        obtain ⟨c, hc, hpc⟩ := ih j' (by omega)
        exact ⟨c, by simpa using hc, hpc⟩
    · rw [List.takeWhile_cons, if_neg hp] at h
      simp at h

/-- If every position in `[p, e)` of `buf` holds a whitespace character, the
non-whitespace content of `buf` is that of the part before `p` plus the part
from `e` on. -/
theorem nonWs_split (buf : List Char) (p e : Nat) (hpe : p ≤ e)
    (hws : ∀ j, p ≤ j → j < e → ∀ c, buf[j]? = some c → isPyWs c = true) :
    nonWs buf = nonWs (buf.take p) ++ nonWs (buf.drop e) := by
  have h3 : (buf.drop p).drop (e - p) = buf.drop e := by
    rw [List.drop_drop]
    congr 1
    omega
  have h4 : nonWs ((buf.drop p).take (e - p)) = [] := by
    apply List.filter_eq_nil_iff.mpr
    intro a ha
    obtain ⟨i, hi, hEq⟩ := List.getElem_of_mem ha
    have hlen : i < (buf.drop p).length := by
      have := hi
      rw [List.length_take] at this
      omega
    have hlen2 : p + i < buf.length := by
      rw [List.length_drop] at hlen
      omega
    have hval : buf[p + i]? = some a := by
      rw [List.getElem?_eq_getElem hlen2]
      have : (List.take (e - p) (buf.drop p))[i] = (buf.drop p)[i] := List.getElem_take ..
      rw [this] at hEq
      have : (buf.drop p)[i] = buf[p + i] := List.getElem_drop ..
      rw [this] at hEq
      rw [hEq]
    have hjlt : p + i < e := by
      have := hi
      rw [List.length_take] at this
      omega
    have := hws (p + i) (by omega) hjlt a hval
    simp [this]
  have h5 : nonWs (buf.drop p) = nonWs (buf.drop e) := by
    have : buf.drop p = (buf.drop p).take (e - p) ++ (buf.drop p).drop (e - p) :=
      (List.take_append_drop ..).symm
    rw [this, nonWs_append, h4, h3, List.nil_append]
  calc nonWs buf = nonWs (buf.take p ++ buf.drop p) := by rw [List.take_append_drop]
    _ = nonWs (buf.take p) ++ nonWs (buf.drop p) := nonWs_append ..
    _ = nonWs (buf.take p) ++ nonWs (buf.drop e) := by rw [h5]

theorem findDoubleNl_spec :
    ∀ (l : List Char) (i : Nat), findDoubleNl l = some i →
      l[i]? = some '\n' ∧ l[i + 1]? = some '\n' := by
  intro l
  induction l with
  | nil => intro i h; simp [findDoubleNl] at h
  | cons a rest ih =>
    intro i h
    cases rest with
    | nil => simp [findDoubleNl] at h
    | cons b rest' =>
      rw [findDoubleNl] at h
      by_cases hab : (a = '\n' && b = '\n') = true
      · rw [if_pos hab] at h
        obtain ⟨ha, hb⟩ := by simpa using hab
        cases h
        subst ha hb
        exact ⟨rfl, by simp⟩
      · rw [if_neg hab] at h
        obtain ⟨i', hi', hEq⟩ := Option.map_eq_some'.mp h
        obtain ⟨h1, h2⟩ := ih i' hi'
        subst hEq
        exact ⟨by simpa using h1, by simpa using h2⟩

theorem findSentEndRel_spec :
    ∀ (l : List Char) (prev : Option Char) (a b : Nat),
      findSentEndRel prev l = some (a, b) →
      a < b ∧ ∀ j, a ≤ j → j < b → ∃ c, l[j]? = some c ∧ isPyWs c = true := by
  intro l
  induction l with
  | nil => intro prev a b h; simp [findSentEndRel] at h
  | cons c rest ih =>
    intro prev a b h
    rw [findSentEndRel] at h
    by_cases hc : (prevIsPunct prev && isPyWs c && sentRunOk (c :: rest)) = true
    · rw [if_pos hc] at h
      have hws : isPyWs c = true := by
        have := (Bool.and_eq_true _ _).mp hc
        exact ((Bool.and_eq_true _ _).mp this.1).2
      have hrun : 1 ≤ ((c :: rest).takeWhile isPyWs).length := by
        rw [List.takeWhile_cons, if_pos hws]
        simp
      obtain ⟨ha, hb⟩ : a = 0 ∧ b = ((c :: rest).takeWhile isPyWs).length := by
        injection h with h'
        injection h' with h1 h2
        exact ⟨h1.symm, h2.symm⟩
      subst ha hb
      refine ⟨by omega, ?_⟩
      intro j hj1 hj2
      exact takeWhile_getElem? isPyWs (c :: rest) j hj2
    · rw [if_neg hc] at h
      obtain ⟨⟨a', b'⟩, hrec, hEq⟩ := Option.map_eq_some'.mp h
      simp only at hEq
      obtain ⟨ha, hb⟩ : a' + 1 = a ∧ b' + 1 = b := by
        injection hEq with h1 h2
        exact ⟨h1, h2⟩
      obtain ⟨hab, hall⟩ := ih (some c) a' b' hrec
      refine ⟨by omega, ?_⟩
      intro j hj1 hj2
      obtain ⟨cc, hcc, hpc⟩ := hall (j - 1) (by omega) (by omega)
      refine ⟨cc, ?_, hpc⟩
      have : j = (j - 1) + 1 := by omega
      rw [this]
      simpa using hcc

theorem findSentEnd_spec (buf : List Char) (sstart ms me : Nat)
    (h : findSentEnd buf sstart = some (ms, me)) :
    ms < me ∧ ∀ j, ms ≤ j → j < me → ∃ c, buf[j]? = some c ∧ isPyWs c = true := by
  unfold findSentEnd at h
  obtain ⟨⟨a, b⟩, hrec, hEq⟩ := Option.map_eq_some'.mp h
  simp only at hEq
  obtain ⟨hms, hme⟩ : sstart + a = ms ∧ sstart + b = me := by
    injection hEq with h1 h2
    exact ⟨h1, h2⟩
  obtain ⟨hab, hall⟩ := findSentEndRel_spec _ _ _ _ hrec
  refine ⟨by omega, ?_⟩
  intro j hj1 hj2
  obtain ⟨c, hc, hpc⟩ := hall (j - sstart) (by omega) (by omega)
  refine ⟨c, ?_, hpc⟩
  rw [List.getElem?_drop] at hc
  have : sstart + (j - sstart) = j := by omega
  rwa [this] at hc

theorem clauseMatchRelAt_spec :
    ∀ (l : List Char) (e : Nat), clauseMatchRelAt l = some e →
      1 ≤ e ∧ ∀ j, 1 ≤ j → j < e → ∃ c, l[j]? = some c ∧ isPyWs c = true := by
  intro l e h
  cases l with
  | nil => simp [clauseMatchRelAt] at h
  | cons c rest =>
    rw [clauseMatchRelAt] at h
    by_cases hp : (isClausePunct c && decide (0 < (rest.takeWhile isPyWs).length)
        && clauseRunOk rest) = true
    · rw [if_pos hp] at h
      have he : e = 1 + (rest.takeWhile isPyWs).length := by
        injection h with h'
        omega
      refine ⟨by omega, ?_⟩
      intro j hj1 hj2
      obtain ⟨cc, hcc, hpc⟩ :=
        takeWhile_getElem? isPyWs rest (j - 1) (by omega)
      refine ⟨cc, ?_, hpc⟩
      have : j = (j - 1) + 1 := by omega
      rw [this]
      simpa using hcc
    · rw [if_neg hp] at h
      exact absurd h (by simp)

theorem clauseMatches_spec :
    ∀ (l : List Char) (pr : Nat × Nat), pr ∈ clauseMatches l →
      pr.1 < pr.2 ∧ ∀ j, pr.1 + 1 ≤ j → j < pr.2 → ∃ c, l[j]? = some c ∧ isPyWs c = true := by
  intro l
  induction l with
  | nil => intro pr h; simp [clauseMatches] at h
  | cons c rest ih =>
    intro pr h
    rw [clauseMatches] at h
    have tailCase : pr ∈ (clauseMatches rest).map (fun pr => (pr.1 + 1, pr.2 + 1)) →
        pr.1 < pr.2 ∧ ∀ j, pr.1 + 1 ≤ j → j < pr.2 →
          ∃ cc, (c :: rest)[j]? = some cc ∧ isPyWs cc = true := by
      intro hmem
      obtain ⟨⟨a, b⟩, hmem', hEq⟩ := List.mem_map.mp hmem
      obtain ⟨hab, hall⟩ := ih (a, b) hmem'
      subst hEq
      refine ⟨by omega, ?_⟩
      intro j hj1 hj2
      simp only at hj1 hj2
      obtain ⟨cc, hcc, hpc⟩ := hall (j - 1) (by omega) (by omega)
      refine ⟨cc, ?_, hpc⟩
      have : j = (j - 1) + 1 := by omega
      rw [this]
      simpa using hcc
    rcases hat : clauseMatchRelAt (c :: rest) with _ | e
    · rw [hat] at h
      simp only [Option.elim] at h
      exact tailCase h
    · rw [hat] at h
      simp only [Option.elim] at h
      rcases List.mem_cons.mp h with hhead | htail
      · subst hhead
        obtain ⟨he, hall⟩ := clauseMatchRelAt_spec (c :: rest) e hat
        exact ⟨by omega, fun j hj1 hj2 => hall j (by omega) hj2⟩
      · exact tailCase htail

theorem lastClauseMatch_spec (buf : List Char) (p e : Nat)
    (h : lastClauseMatch buf = some (p, e)) :
    p < e ∧ ∀ j, p + 1 ≤ j → j < e → ∃ c, buf[j]? = some c ∧ isPyWs c = true := by
  exact clauseMatches_spec buf (p, e) (List.mem_of_mem_getLast? h)

/-! ### The segmenter preserves non-whitespace content -/

theorem paraSplit_inv :
    ∀ (fuel : Nat) (buf : List Char) (acc : List (List Char)),
      nonWs ((paraSplit fuel buf acc).1.flatten ++ (paraSplit fuel buf acc).2)
        = nonWs (acc.flatten ++ buf) := by
  intro fuel
  induction fuel with
  | zero => intro buf acc; rfl
  | succ fuel ih =>
    intro buf acc
    rcases hfind : findDoubleNl buf with _ | i
    · simp only [paraSplit, hfind]
    · simp only [paraSplit, hfind]
      obtain ⟨h1, h2⟩ := findDoubleNl_spec buf i hfind
      have hsplit : nonWs buf = nonWs (buf.take i) ++ nonWs (buf.drop (i + 2)) := by
        apply nonWs_split buf i (i + 2) (by omega)
        intro j hj1 hj2 c hc
        have : j = i ∨ j = i + 1 := by omega
        rcases this with hj | hj <;> subst hj
        · rw [h1] at hc; cases hc; rfl
        · rw [h2] at hc; cases hc; rfl
      rw [ih]
      by_cases hnil : pyStrip (buf.take i) = []
      · rw [if_pos hnil]
        rw [nonWs_append, nonWs_append, hsplit, nonWs_of_pyStrip_nil hnil]
        simp
      · rw [if_neg hnil]
        rw [nonWs_append, nonWs_append, hsplit]
        simp only [List.flatten_append, List.flatten_cons, List.flatten_nil, List.append_nil,
          nonWs_append, nonWs_pyStrip]
        simp [List.append_assoc]

theorem sentLoop_inv :
    ∀ (fuel : Nat) (buf : List Char) (sstart : Nat) (acc : List (List Char)),
      nonWs ((sentLoop fuel buf sstart acc).1.flatten ++ (sentLoop fuel buf sstart acc).2)
        = nonWs (acc.flatten ++ buf) := by
  intro fuel
  induction fuel with
  | zero => intro buf sstart acc; rfl
  | succ fuel ih =>
    intro buf sstart acc
    rcases hfind : findSentEnd buf sstart with _ | ⟨ms, me⟩
    · simp only [sentLoop, hfind]
    · simp only [sentLoop, hfind]
      obtain ⟨hlt, hws⟩ := findSentEnd_spec buf sstart ms me hfind
      have hsplit : nonWs buf = nonWs (buf.take ms) ++ nonWs (buf.drop me) :=
        nonWs_split buf ms me (by omega) (fun j hj1 hj2 c hc => by
          obtain ⟨c', hc', hp⟩ := hws j hj1 hj2
          rw [hc'] at hc; cases hc; exact hp)
      by_cases h1 : skipCandidate (pyStrip (buf.take ms)) = true
      · rw [if_pos h1]; exact ih buf me acc
      · rw [if_neg h1]
        rw [ih]
        rw [nonWs_append, nonWs_append, hsplit]
        simp only [List.flatten_append, List.flatten_cons, List.flatten_nil,
          List.append_nil, nonWs_append, nonWs_pyStrip]
        simp [List.append_assoc]

theorem forceSplit_inv (sentences : List (List Char)) (buf : List Char) :
    nonWs ((forceSplit sentences buf).1.flatten ++ (forceSplit sentences buf).2)
      = nonWs (sentences.flatten ++ buf) := by
  by_cases hlen : MAX_BUFFER_LENGTH < buf.length
  · rcases hfind : lastClauseMatch buf with _ | ⟨p, e⟩
    · simp only [forceSplit, if_pos hlen, hfind]
    · simp only [forceSplit, if_pos hlen, hfind]
      obtain ⟨hlt, hws⟩ := lastClauseMatch_spec buf p e hfind
      have hsplit : nonWs buf = nonWs (buf.take (p + 1)) ++ nonWs (buf.drop e) :=
        nonWs_split buf (p + 1) e (by omega) (fun j hj1 hj2 c hc => by
          obtain ⟨c', hc', hp⟩ := hws j hj1 hj2
          rw [hc'] at hc; cases hc; exact hp)
      by_cases hnil : pyStrip (buf.take (p + 1)) = []
      · rw [if_pos hnil]
        rw [nonWs_append, nonWs_append, hsplit, nonWs_of_pyStrip_nil hnil]
        simp
      · rw [if_neg hnil]
        rw [nonWs_append, nonWs_append, hsplit]
        simp only [List.flatten_append, List.flatten_cons, List.flatten_nil,
          List.append_nil, nonWs_append, nonWs_pyStrip]
        simp [List.append_assoc]
  · simp only [forceSplit, if_neg hlen]

theorem add_inv (buffer token : List Char) :
    nonWs ((SentenceBuffer.add buffer token).1.flatten ++ (SentenceBuffer.add buffer token).2)
      = nonWs (buffer ++ token) := by
  unfold SentenceBuffer.add
  rw [forceSplit_inv, sentLoop_inv, paraSplit_inv]
  simp

theorem runAdds_inv :
    ∀ (frags : List (List Char)) (buffer : List Char),
      nonWs ((runAdds buffer frags).1.flatten ++ (runAdds buffer frags).2)
        = nonWs (buffer ++ frags.flatten) := by
  intro frags
  induction frags with
  | nil => intro buffer; simp [runAdds]
  | cons f rest ih =>
    intro buffer
    rw [runAdds]
    simp only [List.flatten_append, nonWs_append, List.flatten_cons]
    rw [List.append_assoc, ← nonWs_append, ih, nonWs_append, ← List.append_assoc,
      ← nonWs_append, add_inv]
    simp [nonWs_append, List.append_assoc]

/-! ### Claim C1 -/

/-- **C1.** For every sequence of string fragments fed in order to
`SentenceBuffer.add` followed by one `flush`, the concatenation of all
sentences returned by the `add` calls plus the `flush` result reconstructs
the full input: the non-whitespace characters of the concatenated outputs
are exactly the non-whitespace characters of the concatenated input, each
exactly once and in the original order — only whitespace (at detected
split boundaries and at the trimmed edges of each sentence) is removed. -/
theorem c1_segmenter_reconstructs_input (frags : List (List Char)) :
    nonWs (((runAdds [] frags).1
        ++ ((SentenceBuffer.flush (runAdds [] frags).2).1).toList).flatten)
      = nonWs frags.flatten := by
  have hrun := runAdds_inv frags []
  rw [List.nil_append] at hrun
  have hfl : nonWs ((SentenceBuffer.flush (runAdds [] frags).2).1.toList.flatten)
      = nonWs (runAdds [] frags).2 := by
    simp only [SentenceBuffer.flush]
    by_cases h : pyStrip (runAdds [] frags).2 = []
    · rw [if_pos h]
      have hnil : nonWs (runAdds [] frags).2 = [] := nonWs_of_pyStrip_nil h
      rw [hnil]
      rfl
    · rw [if_neg h]
      simp [nonWs_pyStrip]
  rw [List.flatten_append, nonWs_append, hfl, ← nonWs_append, hrun]

/-! ### Claim C3 -/

/-- The concrete input of claim C3. -/
def c3Input : List Char := "Dr. Smith arrived. He left.".toList

/-- **C3, counterexample.** Feeding `"Dr. Smith arrived. He left."` to a
fresh `SentenceBuffer` does *not* yield the two sentences
`"Dr. Smith arrived."` and `"He left."`: it yields no sentence at all,
because the candidate `"Dr. Smith arrived."` is 18 characters long, below
`MIN_SENTENCE_LENGTH = 20`, so the split is suppressed and merged forward. -/
theorem c3_counterexample :
    (SentenceBuffer.add [] c3Input).1
      ≠ ["Dr. Smith arrived.".toList, "He left.".toList] := by
  decide

/-- **C3, amended.** Feeding `"Dr. Smith arrived. He left."` to a fresh
`SentenceBuffer` yields no sentences from `add` (in particular there is no
spurious split after `"Dr."`): the abbreviation guard suppresses the split
after `"Dr."` and the minimum-length guard suppresses the split after
`"arrived."` (the candidate has only 18 characters); the whole text stays
buffered and is returned by `flush` as one final sentence. -/
theorem c3_amended :
    (SentenceBuffer.add [] c3Input).1 = []
      ∧ (SentenceBuffer.add [] c3Input).2 = c3Input
      ∧ (SentenceBuffer.flush (SentenceBuffer.add [] c3Input).2).1 = some c3Input := by
  refine ⟨by decide, by decide, by decide⟩

/-! ### Claim C7 -/

theorem clauseMatchRelAt_punct (c : Char) (rest : List Char) (e : Nat)
    (h : clauseMatchRelAt (c :: rest) = some e) : isClausePunct c = true := by
  rw [clauseMatchRelAt] at h
  by_cases hp : (isClausePunct c && decide (0 < (rest.takeWhile isPyWs).length)
      && clauseRunOk rest) = true
  · have := (Bool.and_eq_true _ _).mp hp
    exact ((Bool.and_eq_true _ _).mp this.1).1
  · rw [if_neg hp] at h
    exact absurd h (by simp)

theorem clauseMatches_punct :
    ∀ (l : List Char) (pr : Nat × Nat), pr ∈ clauseMatches l →
      ∃ c, l[pr.1]? = some c ∧ isClausePunct c = true := by
  intro l
  induction l with
  | nil => intro pr h; simp [clauseMatches] at h
  | cons c rest ih =>
    intro pr h
    rw [clauseMatches] at h
    have tailCase : pr ∈ (clauseMatches rest).map (fun pr => (pr.1 + 1, pr.2 + 1)) →
        ∃ cc, (c :: rest)[pr.1]? = some cc ∧ isClausePunct cc = true := by
      intro hmem
      obtain ⟨⟨a, b⟩, hmem', hEq⟩ := List.mem_map.mp hmem
      obtain ⟨cc, hcc, hpc⟩ := ih (a, b) hmem'
      subst hEq
      exact ⟨cc, by simpa using hcc, hpc⟩
    rcases hat : clauseMatchRelAt (c :: rest) with _ | e
    · rw [hat] at h
      simp only [Option.elim] at h
      exact tailCase h
    · rw [hat] at h
      simp only [Option.elim] at h
      rcases List.mem_cons.mp h with hhead | htail
      · subst hhead
        exact ⟨c, by simp, clauseMatchRelAt_punct c rest e hat⟩
      · exact tailCase htail

theorem clauseMatches_fst_le_getLast :
    ∀ (l : List Char) (pr last : Nat × Nat), pr ∈ clauseMatches l →
      (clauseMatches l).getLast? = some last → pr.1 ≤ last.1 := by
  intro l
  induction l with
  | nil => intro pr last h; simp [clauseMatches] at h
  | cons c rest ih =>
    intro pr last h hlast
    rw [clauseMatches] at h hlast
    have tailCase : pr ∈ (clauseMatches rest).map (fun pr => (pr.1 + 1, pr.2 + 1)) →
        ((clauseMatches rest).map (fun pr => (pr.1 + 1, pr.2 + 1))).getLast? = some last →
        pr.1 ≤ last.1 := by
      intro hmem hl
      obtain ⟨⟨a, b⟩, hmem', hEq⟩ := List.mem_map.mp hmem
      rw [List.getLast?_map] at hl
      obtain ⟨⟨la, lb⟩, hl', hEq'⟩ := Option.map_eq_some'.mp hl
      have := ih (a, b) (la, lb) hmem' hl'
      subst hEq
      subst hEq'
      simpa using Nat.add_le_add_right this 1
    rcases hat : clauseMatchRelAt (c :: rest) with _ | e
    · rw [hat] at h hlast
      simp only [Option.elim] at h hlast
      exact tailCase h hlast
    · rw [hat] at h hlast
      simp only [Option.elim] at h hlast
      rcases hrest : (clauseMatches rest).map (fun pr => (pr.1 + 1, pr.2 + 1)) with _ | ⟨x, xs⟩
      · rw [hrest] at h hlast
        rw [List.getLast?_singleton] at hlast
        cases hlast
        rcases List.mem_cons.mp h with hhead | htail
        · subst hhead; exact le_refl _
        · simp at htail
      · rw [hrest] at h hlast
        rw [List.getLast?_cons_cons] at hlast
        rcases List.mem_cons.mp h with hhead | htail
        · subst hhead
          simp
        · exact tailCase (by rw [hrest]; exact htail) (by rw [hrest]; exact hlast)

/-- **C7.** If (after the double-newline and sentence-punctuation passes)
the buffer exceeds `MAX_BUFFER_LENGTH` and `_CLAUSE_SPLIT_RE` has a last
match `(p, e)`, the force-split block emits exactly one forced sentence —
everything up to and including the clause punctuation at position `p`,
trimmed — and keeps the buffer from position `e` on.  Position `p` indeed
holds clause punctuation and is the *last* match position. -/
theorem c7_force_split (sentences : List (List Char)) (buf : List Char) (p e : Nat)
    (hlen : MAX_BUFFER_LENGTH < buf.length)
    (hlast : lastClauseMatch buf = some (p, e))
    (hne : pyStrip (buf.take (p + 1)) ≠ []) :
    forceSplit sentences buf = (sentences ++ [pyStrip (buf.take (p + 1))], buf.drop e)
      ∧ (∃ c, buf[p]? = some c ∧ isClausePunct c = true)
      ∧ (∀ pr ∈ clauseMatches buf, pr.1 ≤ p) := by
  have hmem : (p, e) ∈ clauseMatches buf := List.mem_of_mem_getLast? hlast
  refine ⟨?_, clauseMatches_punct buf (p, e) hmem, ?_⟩
  · simp only [forceSplit, if_pos hlen, hlast]
    rw [if_neg hne]
  · intro pr hpr
    exact clauseMatches_fst_le_getLast buf pr (p, e) hpr hlast

/-- The 600-character buffer of claim C7: 549 letters, a comma at
position 549, then 49 more letters, with no sentence-ending punctuation. -/
def c7Input : List Char := List.replicate 549 'a' ++ (", ".toList) ++ List.replicate 49 'b'

/-- The forced sentence: everything up to and including the comma. -/
def c7Sentence : List Char := List.replicate 549 'a' ++ [',']

set_option maxRecDepth 100000 in
set_option maxHeartbeats 1000000 in
/-- **C7, witness.** On the concrete 600-character buffer the force-split
hypotheses hold, and `add` on a fresh buffer emits exactly the forced
sentence ending at the comma at position 549. -/
theorem c7_force_split_witness :
    MAX_BUFFER_LENGTH < c7Input.length
      ∧ lastClauseMatch c7Input = some (549, 551)
      ∧ forceSplit [] c7Input = ([c7Sentence], List.replicate 49 'b')
      ∧ SentenceBuffer.add [] c7Input = ([c7Sentence], List.replicate 49 'b') := by
  have h := (c7_force_split [] c7Input 549 551 (by decide) (by decide) (by decide)).1
  refine ⟨by decide, by decide, ?_, by decide⟩
  rw [h]
  decide

/-! ### The `_PAGE_REQUEST_RE` regular expression

`_PAGE_REQUEST_RE` is hand-compiled to a backtracking matcher with Python
`re` semantics: a matcher maps a state (remaining input + captured groups)
to the list of possible successor states in backtracking preference order
(alternatives in source order, greedy quantifiers longest-first, lazy
quantifiers shortest-first); `re.search` takes the first start position at
which the pattern matches and the head of that preference list.
`re.IGNORECASE` is modelled by case-folding literals. -/

/-- Matcher state: remaining input and the four capture groups of
`_PAGE_REQUEST_RE` (page number in groups 1–3, document hint in group 4). -/
structure MState where
  rest : List Char
  g1 : Option (List Char) := none
  g2 : Option (List Char) := none
  g3 : Option (List Char) := none
  g4 : Option (List Char) := none
deriving DecidableEq

/-- A backtracking matcher: successor states in preference order. -/
def Matcher := MState → List MState

/-- Sequencing: all continuations of the first preferred outcome come
before any continuation of a less preferred one (Python backtracking). -/
def mseq (a b : Matcher) : Matcher := fun s => (a s).flatMap b

/-- Ordered alternation `x|y`. -/
def malt (a b : Matcher) : Matcher := fun s => a s ++ b s

/-- Greedy option `(?:x)?`: with-`x` outcomes preferred over skipping. -/
def mopt (a : Matcher) : Matcher := fun s => a s ++ [s]

/-- Case-insensitive literal match of `w` against the head of the input. -/
def matchLit : List Char → List Char → Option (List Char)
  | [], rest => some rest
  | _ :: _, [] => none
  | c :: w, r :: rest => if c.toLower = r.toLower then matchLit w rest else none

/-- Literal token (with `re.IGNORECASE`). -/
def mlit (w : String) : Matcher := fun s =>
  match matchLit w.toList s.rest with
  | some rest' => [{ s with rest := rest' }]
  | none => []

/-- `\s+`, greedy: consume 1–k whitespace characters, longest first. -/
def mws1 : Matcher := fun s =>
  let run := s.rest.takeWhile isPyWs
  (List.range run.length).map (fun d => { s with rest := s.rest.drop (run.length - d) })

/-- `(\d+)`, greedy with capture: consume 1–k digits, longest first,
recording the consumed digits via `set`. -/
def mdigits (set : MState → List Char → MState) : Matcher := fun s =>
  let run := s.rest.takeWhile isAsciiDigit
  (List.range run.length).map (fun d =>
    set { s with rest := s.rest.drop (run.length - d) } (run.take (run.length - d)))

/-- `.`: any single character except a newline. -/
def mdotChar : Matcher := fun s =>
  match s.rest with
  | c :: rest => if c = '\n' then [] else [{ s with rest := rest }]
  | [] => []

/-- `.*?`, lazy: consume 0–k non-newline characters, shortest first. -/
def mlazystar : Matcher := fun s =>
  let run := s.rest.takeWhile (fun c => !(c = '\n'))
  (List.range (run.length + 1)).map (fun k => { s with rest := s.rest.drop k })

/-- `(.+)`, greedy with capture: consume 1–k non-newline characters,
longest first, recording them via `set`. -/
def mcapRest (set : MState → List Char → MState) : Matcher := fun s =>
  let run := s.rest.takeWhile (fun c => !(c = '\n'))
  (List.range run.length).map (fun d =>
    set { s with rest := s.rest.drop (run.length - d) } (run.take (run.length - d)))

def setG1 (s : MState) (v : List Char) : MState := { s with g1 := some v }

def setG2 (s : MState) (v : List Char) : MState := { s with g2 := some v }

def setG3 (s : MState) (v : List Char) : MState := { s with g3 := some v }

def setG4 (s : MState) (v : List Char) : MState := { s with g4 := some v }

/-- `page\s+(?:number\s+)?(\d+)` with the page number captured via `set`. -/
def pPageNum (set : MState → List Char → MState) : Matcher :=
  mseq (mlit "page") (mseq mws1 (mseq (mopt (mseq (mlit "number") mws1)) (mdigits set)))

/-- Alternative 1: `(?:read|show|get|give|tell)(?:\s+me)?(?:\s+about)?\s+page\s+(?:number\s+)?(\d+)`. -/
def pAlt1 : Matcher :=
  mseq (malt (mlit "read") (malt (mlit "show") (malt (mlit "get") (malt (mlit "give") (mlit "tell")))))
    (mseq (mopt (mseq mws1 (mlit "me")))
      (mseq (mopt (mseq mws1 (mlit "about")))
        (mseq mws1 (pPageNum setG1))))

/-- Alternative 2: `what(?:\s+is|.s)\s+on\s+page\s+(?:number\s+)?(\d+)`. -/
def pAlt2 : Matcher :=
  mseq (mlit "what")
    (mseq (malt (mseq mws1 (mlit "is")) (mseq mdotChar (mlit "s")))
      (mseq mws1 (mseq (mlit "on") (mseq mws1 (pPageNum setG2)))))

/-- Alternative 3: `page\s+(?:number\s+)?(\d+).*?(?:read|show|get|content|text|what)`. -/
def pAlt3 : Matcher :=
  mseq (pPageNum setG3)
    (mseq mlazystar
      (malt (mlit "read") (malt (mlit "show") (malt (mlit "get")
        (malt (mlit "content") (malt (mlit "text") (mlit "what")))))))

/-- The full `_PAGE_REQUEST_RE`: one of the three alternatives, then the
optional document-hint clause `(?:\s+(?:of|from|in)\s+(.+))?`. -/
def pageRequestPattern : Matcher :=
  mseq (malt pAlt1 (malt pAlt2 pAlt3))
    (mopt (mseq mws1 (mseq (malt (mlit "of") (malt (mlit "from") (mlit "in")))
      (mseq mws1 (mcapRest setG4)))))

/-- `re.search`: try each start position left to right; at the first
position where the pattern matches, return the most preferred match. -/
def pageRequestSearchAux : List Char → Option MState
  | [] =>
    match pageRequestPattern { rest := [] } with
    | st :: _ => some st
    | [] => none
  | c :: rest =>
    match pageRequestPattern { rest := c :: rest } with
    | st :: _ => some st
    | [] => pageRequestSearchAux rest

def pageRequestSearch (input : List Char) : Option MState :=
  pageRequestSearchAux input

/-- Python `int` on a digit string. -/
def natOfDigits (ds : List Char) : Nat :=
  ds.foldl (fun acc c => 10 * acc + (c.toNat - '0'.toNat)) 0

/-- Python truthiness of an optional string (`None` and `""` are falsy). -/
def pyTruthy : Option (List Char) → Bool
  | some l => !(l = [])
  | none => false

/-- `PipelineOrchestrator._detect_page_request`: search `_PAGE_REQUEST_RE`,
take the page number from group 1, 2 or 3 (`g1 or g2 or g3`), and the
stripped group 4 as the document hint (`None` when group 4 is absent). -/
def detect_page_request (query : String) : Option (Nat × Option String) :=
  match pageRequestSearch query.toList with
  | none => none
  | some st =>
    let page_str := if pyTruthy st.g1 then st.g1 else if pyTruthy st.g2 then st.g2 else st.g3
    match page_str with
    | none => none
    | some ds =>
      if ds = [] then none
      else
        let doc_hint : Option String :=
          match st.g4 with
          | some h => if h = [] then none else some (String.mk (pyStrip h))
          | none => none
        some (natOfDigits ds, doc_hint)

/-! ### Claim C6 -/

/-- **C6.** The page-request detector maps `"read page 5 of the manual"`
to page 5 with hint `"the manual"`, maps `"what is on page 2"` to page 2
with no hint, and does not match `"tell me about the budget report"`. -/
theorem c6_page_request_detector :
    detect_page_request "read page 5 of the manual" = some (5, some "the manual")
      ∧ detect_page_request "what is on page 2" = some (2, none)
      ∧ detect_page_request "tell me about the budget report" = none := by
  refine ⟨by decide, by decide, by decide⟩

/-! ### `_build_context`: retrieved passages and citation dedup

A retrieved passage is the dict produced by `rag_service.retrieve` /
`retrieve_pages`: `{"text", "doc_id", "filename", "page_number"}` where
`page_number` is the stored page (a natural number) or the `-1` sentinel
for chunk-level plain text (`rag.py` always stores one of those two). -/

structure Chunk where
  text : String
  doc_id : String
  filename : String
  page_number : Int
deriving DecidableEq

/-- The dedup key `(chunk.get("doc_id", ""), page_num)` of the loop in
`_build_context`. -/
def chunkKey (ch : Chunk) : String × Int :=
  (ch.doc_id, ch.page_number)

/-- A `SourceCitation` entry as appended by `_build_context`. -/
structure Source where
  filename : String
  page_number : Option Int
  doc_id : String
deriving DecidableEq

/-- The citation built from one passage:
`page_number if page_num >= 0 else None`. -/
def mkSource (ch : Chunk) : Source :=
  { filename := ch.filename
    page_number := if 0 ≤ ch.page_number then some ch.page_number else none
    doc_id := ch.doc_id }

/-- The key a citation represents (`None` page ↔ the `-1` sentinel). -/
def citKey (cit : Source) : String × Int :=
  (cit.doc_id, cit.page_number.getD (-1))

/-- The dedup loop of `_build_context`: `seen_sources` is the set of keys
already emitted; each passage whose key is unseen appends one citation. -/
def buildSourcesAux : List Chunk → List (String × Int) → List Source → List Source
  | [], _, sources => sources
  | ch :: rest, seen, sources =>
    let key := chunkKey ch
    if key ∈ seen then buildSourcesAux rest seen sources
    else buildSourcesAux rest (key :: seen) (sources ++ [mkSource ch])

/-- The citation list produced by one `_build_context` call from its
retrieved passages. -/
def buildSources (chunks : List Chunk) : List Source :=
  buildSourcesAux chunks [] []

theorem citKey_mkSource (ch : Chunk)
    (h : 0 ≤ ch.page_number ∨ ch.page_number = -1) :
    citKey (mkSource ch) = chunkKey ch := by
  rcases h with h | h
  · simp [citKey, mkSource, chunkKey, if_pos h]
  · have : ¬ (0 ≤ ch.page_number) := by omega
    simp [citKey, mkSource, chunkKey, if_neg this, h]

theorem buildSourcesAux_count :
    ∀ (chunks : List Chunk) (seen : List (String × Int)) (sources : List Source),
      (∀ ch ∈ chunks, 0 ≤ ch.page_number ∨ ch.page_number = -1) →
      (∀ k, (sources.map citKey).count k = if k ∈ seen then 1 else 0) →
      ∀ k, ((buildSourcesAux chunks seen sources).map citKey).count k
        = if k ∈ seen ∨ k ∈ chunks.map chunkKey then 1 else 0 := by
  intro chunks
  induction chunks with
  | nil =>
    intro seen sources _ hpre k
    simp only [buildSourcesAux, List.map_nil, List.not_mem_nil, or_false]
    exact hpre k
  | cons ch rest ih =>
    intro seen sources hp hpre k
    rw [buildSourcesAux]
    by_cases hseen : chunkKey ch ∈ seen
    · rw [if_pos hseen]
      have := ih seen sources (fun c hc => hp c (List.mem_cons_of_mem _ hc)) hpre k
      rw [this]
      by_cases hk : k = chunkKey ch
      · subst hk
        simp [hseen]
      · simp only [List.map_cons, List.mem_cons]
        refine if_congr ?_ rfl rfl
        constructor
        · rintro (h | h)
          · exact Or.inl h
          · exact Or.inr (Or.inr h)
        · rintro (h | h | h)
          · exact Or.inl h
          · exact absurd h hk
          · exact Or.inr h
    · rw [if_neg hseen]
      have hck : citKey (mkSource ch) = chunkKey ch :=
        citKey_mkSource ch (hp ch (List.mem_cons_self _ _))
      have hpre' : ∀ k, ((sources ++ [mkSource ch]).map citKey).count k
          = if k ∈ chunkKey ch :: seen then 1 else 0 := by
        intro k'
        rw [List.map_append, List.count_append, hpre k']
        simp only [List.map_cons, List.map_nil, List.count_cons, List.count_nil]
        by_cases hk : k' = chunkKey ch
        · subst hk
          rw [if_neg hseen]
          simp [hck]
        · have : ¬ (citKey (mkSource ch) == k') = true := by
            simp [hck]
            exact fun hh => hk hh.symm
          simp only [List.count_nil, this]
          by_cases hks : k' ∈ seen
          · simp [hks, List.mem_cons, hk]
          · simp [hks, List.mem_cons, hk]
      have := ih (chunkKey ch :: seen) (sources ++ [mkSource ch])
        (fun c hc => hp c (List.mem_cons_of_mem _ hc)) hpre' k
      rw [this]
      simp only [List.map_cons, List.mem_cons]
      refine if_congr ?_ rfl rfl
      constructor
      · rintro ((h | h) | h)
        · exact Or.inr (Or.inl h)
        · exact Or.inl h
        · exact Or.inr (Or.inr h)
      · rintro (h | h | h)
        · exact Or.inl (Or.inr h)
        · exact Or.inl (Or.inl h)
        · exact Or.inr h

theorem buildSourcesAux_mem :
    ∀ (chunks : List Chunk) (seen : List (String × Int)) (sources : List Source)
      (cit : Source), cit ∈ buildSourcesAux chunks seen sources →
      cit ∈ sources ∨ ∃ ch ∈ chunks, cit = mkSource ch := by
  intro chunks
  induction chunks with
  | nil =>
    intro seen sources cit h
    rw [buildSourcesAux] at h
    exact Or.inl h
  | cons ch rest ih =>
    intro seen sources cit h
    rw [buildSourcesAux] at h
    by_cases hseen : chunkKey ch ∈ seen
    · rw [if_pos hseen] at h
      rcases ih _ _ _ h with h' | ⟨c, hc, hEq⟩
      · exact Or.inl h'
      · exact Or.inr ⟨c, List.mem_cons_of_mem _ hc, hEq⟩
    · rw [if_neg hseen] at h
      rcases ih _ _ _ h with h' | ⟨c, hc, hEq⟩
      · rcases List.mem_append.mp h' with h'' | h''
        · exact Or.inl h''
        · exact Or.inr ⟨ch, List.mem_cons_self _ _, by simpa using h''⟩
      · exact Or.inr ⟨c, List.mem_cons_of_mem _ hc, hEq⟩

/-! ### Claim C8 -/

/-- **C8.** Within one `_build_context` call the citation list has exactly
one entry per distinct `(doc_id, page_number)` key among the retrieved
passages (two passages with the same document and page contribute one
citation), and every passage — including a chunk-level one with the `-1`
"no page" sentinel — is represented by a citation with matching document
id whose page number is `None` exactly when the page is absent. -/
theorem c8_citation_dedup (chunks : List Chunk)
    (hpages : ∀ ch ∈ chunks, 0 ≤ ch.page_number ∨ ch.page_number = -1) :
    (∀ k : String × Int,
        ((buildSources chunks).map citKey).count k
          = if k ∈ chunks.map chunkKey then 1 else 0)
      ∧ ∀ ch ∈ chunks, ∃ cit ∈ buildSources chunks,
          cit.doc_id = ch.doc_id
            ∧ cit.page_number
              = (if 0 ≤ ch.page_number then some ch.page_number else none) := by
  have hcount : ∀ k : String × Int,
      ((buildSources chunks).map citKey).count k
        = if k ∈ chunks.map chunkKey then 1 else 0 := by
    intro k
    have := buildSourcesAux_count chunks [] [] hpages (by intro k'; simp) k
    simpa [buildSources] using this
  refine ⟨hcount, ?_⟩
  intro ch hch
  have hk : chunkKey ch ∈ chunks.map chunkKey := List.mem_map_of_mem _ hch
  have h1 : ((buildSources chunks).map citKey).count (chunkKey ch) = 1 := by
    rw [hcount, if_pos hk]
  have hpos : chunkKey ch ∈ (buildSources chunks).map citKey := by
    have : 0 < ((buildSources chunks).map citKey).count (chunkKey ch) := by omega
    exact List.count_pos_iff.mp this
  obtain ⟨cit, hcit, hkey⟩ := List.mem_map.mp hpos
  rcases buildSourcesAux_mem chunks [] [] cit hcit with h' | ⟨ch', hch', hEq⟩
  · simp at h'
  · subst hEq
    have hck' : citKey (mkSource ch') = chunkKey ch' := citKey_mkSource ch' (hpages ch' hch')
    rw [hck'] at hkey
    have hdoc : ch'.doc_id = ch.doc_id := congrArg Prod.fst hkey
    have hpn : ch'.page_number = ch.page_number := congrArg Prod.snd hkey
    refine ⟨mkSource ch', hcit, ?_, ?_⟩
    · simpa [mkSource] using hdoc
    · simp [mkSource, hpn]

/-- The two passages of the spec's dedup example: both tagged
`(document "d1", page 3)`. -/
def c8Demo : List Chunk :=
  [{ text := "first passage", doc_id := "d1", filename := "f1.pdf", page_number := 3 },
   { text := "second passage", doc_id := "d1", filename := "f1.pdf", page_number := 3 }]

/-- **C8, witness.** The two `(d1, page 3)` passages contribute exactly one
citation. -/
theorem c8_citation_dedup_witness :
    ((buildSources c8Demo).map citKey).count ("d1", (3 : Int))
        = (if ("d1", (3 : Int)) ∈ c8Demo.map chunkKey then 1 else 0)
      ∧ buildSources c8Demo
        = [{ filename := "f1.pdf", page_number := some 3, doc_id := "d1" }] := by
  refine ⟨(c8_citation_dedup c8Demo (by decide)).1 ("d1", 3), by decide⟩

/-! ### `sessions.py`: session records and their mutations

`time.time()` readings are modelled as rational numbers passed explicitly
(`now` is the value the mutation reads from the clock). -/

structure SessionData where
  session_id : String
  title : String
  created_at : ℚ
  updated_at : ℚ
  conversation_history : List (String × String)
  rag_enabled : Bool
deriving DecidableEq

/-- `SessionManager.update_title` on a present session: set the title and
stamp `updated_at = time.time()`. -/
def update_title (s : SessionData) (title : String) (now : ℚ) : SessionData :=
  { s with title := title, updated_at := now }

/-- `SessionManager.append_history` on a present session: append the turn,
stamp `updated_at = time.time()`, and auto-title from the first user
message when the title is still `"New chat"`
(`content[:60].strip()`, plus `"..."` when the content is longer). -/
def append_history (s : SessionData) (role content : String) (now : ℚ) : SessionData :=
  let s1 := { s with
    conversation_history := s.conversation_history ++ [(role, content)]
    updated_at := now }
  if role = "user" && s.title = "New chat" then
    let t := String.mk (pyStrip (content.toList.take 60))
    { s1 with title := if 60 < content.length then t ++ "..." else t }
  else s1

/-- `SessionManager.set_rag_enabled` on a present session: set the flag and
persist.  The source does not touch `updated_at` here. -/
def set_rag_enabled (s : SessionData) (enabled : Bool) : SessionData :=
  { s with rag_enabled := enabled }

/-! ### Claim C4 -/

/-- A concrete session state for the C4 counterexample. -/
def c4Session : SessionData :=
  { session_id := "s1", title := "My chat", created_at := 5, updated_at := 5,
    conversation_history := [], rag_enabled := true }

/-- **C4, counterexample.** Toggling the retrieval-enabled flag is a
mutation of the session record (the flag really changes), yet it leaves
`updated_at` exactly as it was — so `updated_at` does *not* change on
every mutation. -/
theorem c4_counterexample :
    (set_rag_enabled c4Session false).updated_at = c4Session.updated_at
      ∧ set_rag_enabled c4Session false ≠ c4Session := by
  refine ⟨rfl, fun h => ?_⟩
  have := congrArg SessionData.rag_enabled h
  simp [set_rag_enabled, c4Session] at this

/-- **C4, amended.** Appending a history turn and updating the title set
`updated_at` to the clock reading of the mutation — hence not less than
the previous value whenever the clock has not gone backwards — but
toggling the retrieval-enabled flag leaves `updated_at` unchanged. -/
theorem c4_amended (s : SessionData) (role content title : String) (b : Bool) (now : ℚ)
    (hclock : s.updated_at ≤ now) :
    ((append_history s role content now).updated_at = now
        ∧ s.updated_at ≤ (append_history s role content now).updated_at)
      ∧ ((update_title s title now).updated_at = now
        ∧ s.updated_at ≤ (update_title s title now).updated_at)
      ∧ (set_rag_enabled s b).updated_at = s.updated_at := by
  have happ : (append_history s role content now).updated_at = now := by
    rw [append_history]
    by_cases h : (role = "user" && s.title = "New chat") = true
    · rw [if_pos h]
    · rw [if_neg h]
  refine ⟨⟨happ, ?_⟩, ⟨rfl, hclock⟩, rfl⟩
  rw [happ]
  exact hclock

/-- **C4, witness.** The amended claim at a concrete session and clock. -/
theorem c4_amended_witness :
    (append_history c4Session "user" "hi" 7).updated_at = 7
      ∧ (update_title c4Session "t" 7).updated_at = 7
      ∧ (set_rag_enabled c4Session false).updated_at = c4Session.updated_at := by
  have h := c4_amended c4Session "user" "hi" "t" false 7 (by norm_num [c4Session])
  exact ⟨h.1.1, h.2.1.1, h.2.2⟩

/-! ### `llm.py`: `generate_stream` retry behaviour

One attempt of the Ollama streaming call is one iteration of the
`for attempt in range(MAX_RETRIES + 1)` loop:
* `statusError code` — `raise_for_status()` raised before any line was
  read, so an attempt failing this way yields nothing;
* `streamed frags interrupted` — the response streamed `frags` fragments
  and then either completed (`interrupted = false`) or raised a
  `ConnectError`/`ReadError` (`interrupted = true`). -/

/-- `MAX_RETRIES` in `llm.py`. -/
def MAX_RETRIES : Nat := 2

/-- `_RETRYABLE_STATUS` in `llm.py`. -/
def _RETRYABLE_STATUS : List Nat := [500, 502, 503]

inductive StreamAttempt where
  | statusError (code : Nat)
  | streamed (frags : List (List Char)) (interrupted : Bool)
deriving DecidableEq

inductive StreamEnd where
  | completed
  | failed
deriving DecidableEq

/-- The fragments an attempt yields to the caller. -/
def attemptYields : StreamAttempt → List (List Char)
  | .statusError _ => []
  | .streamed frags _ => frags

/-- Whether the attempt's failure is of a kind the loop retries
(given a remaining retry budget). -/
def retryableAttempt : StreamAttempt → Bool
  | .statusError code => decide (code ∈ _RETRYABLE_STATUS)
  | .streamed _ interrupted => interrupted

/-- The retry loop of `LLMService.generate_stream`: the whole streaming
request — `yield`s included — sits inside the `try` of each attempt, so a
retryable failure restarts the stream even after fragments were yielded;
the generator's overall output is the concatenation over all attempts run. -/
def generateStreamAux (attempts : Nat → StreamAttempt) :
    Nat → Nat → List (List Char) × StreamEnd
  | 0, _ => ([], .failed)
  | fuel + 1, attempt =>
    match attempts attempt with
    | .statusError code =>
      if code ∈ _RETRYABLE_STATUS ∧ attempt < MAX_RETRIES then
        generateStreamAux attempts fuel (attempt + 1)
      else ([], .failed)
    | .streamed frags interrupted =>
      if interrupted then
        if attempt < MAX_RETRIES then
          let r := generateStreamAux attempts fuel (attempt + 1)
          (frags ++ r.1, r.2)
        else (frags, .failed)
      else (frags, .completed)

/-- `generate_stream`: all fragments yielded across attempts, and whether
the generator finished normally or raised. -/
def generateStream (attempts : Nat → StreamAttempt) : List (List Char) × StreamEnd :=
  generateStreamAux attempts (MAX_RETRIES + 1) 0

/-- The concatenated yields of attempts `a, a+1, …, a+k-1`. -/
def yieldsRange (attempts : Nat → StreamAttempt) (a : Nat) : Nat → List (List Char)
  | 0 => []
  | k + 1 => attemptYields (attempts a) ++ yieldsRange attempts (a + 1) k

theorem genStreamAux_success (attempts : Nat → StreamAttempt) :
    ∀ (k a fuel : Nat) (frags : List (List Char)),
      (∀ i, i < k → retryableAttempt (attempts (a + i)) = true) →
      attempts (a + k) = .streamed frags false →
      a + k ≤ MAX_RETRIES → k < fuel →
      generateStreamAux attempts fuel a
        = (yieldsRange attempts a k ++ frags, .completed) := by
  intro k
  induction k with
  | zero =>
    intro a fuel frags _ hk hle hfuel
    cases fuel with
    | zero => omega
    | succ fuel =>
      rw [Nat.add_zero] at hk
      simp only [generateStreamAux, hk]
      simp [yieldsRange]
  | succ k ih =>
    intro a fuel frags hr hk hle hfuel
    cases fuel with
    | zero => omega
    | succ fuel =>
      have h0 : retryableAttempt (attempts a) = true := by
        have := hr 0 (by omega)
        simpa using this
      have halt : a < MAX_RETRIES := by omega
      rcases hat : attempts a with code | ⟨frags0, interrupted⟩
      · have hmem : code ∈ _RETRYABLE_STATUS := by
          rw [hat] at h0
          simpa [retryableAttempt] using h0
        have hrec := ih (a + 1) fuel frags
          (fun i hi => by
            have := hr (i + 1) (by omega)
            rwa [show a + (i + 1) = a + 1 + i by omega] at this)
          (by rwa [show a + 1 + k = a + (k + 1) by omega])
          (by omega) (by omega)
        simp only [generateStreamAux, hat]
        rw [if_pos ⟨hmem, halt⟩, hrec]
        simp [yieldsRange, hat, attemptYields]
      · have hint : interrupted = true := by
          rw [hat] at h0
          simpa [retryableAttempt] using h0
        subst hint
        have hrec := ih (a + 1) fuel frags
          (fun i hi => by
            have := hr (i + 1) (by omega)
            rwa [show a + (i + 1) = a + 1 + i by omega] at this)
          (by rwa [show a + 1 + k = a + (k + 1) by omega])
          (by omega) (by omega)
        simp only [generateStreamAux, hat]
        rw [if_pos trivial, if_pos halt, hrec]
        simp [yieldsRange, hat, attemptYields]

theorem genStreamAux_fail (attempts : Nat → StreamAttempt) :
    ∀ (k a fuel : Nat),
      (∀ i, i ≤ k → retryableAttempt (attempts (a + i)) = true) →
      a + k = MAX_RETRIES → k < fuel →
      generateStreamAux attempts fuel a = (yieldsRange attempts a (k + 1), .failed) := by
  intro k
  induction k with
  | zero =>
    intro a fuel hr ha hfuel
    cases fuel with
    | zero => omega
    | succ fuel =>
      have h0 : retryableAttempt (attempts a) = true := by
        have := hr 0 (by omega)
        simpa using this
      have hmax : ¬ a < MAX_RETRIES := by omega
      rcases hat : attempts a with code | ⟨frags0, interrupted⟩
      · simp only [generateStreamAux, hat]
        rw [if_neg (fun hh => hmax hh.2)]
        simp [yieldsRange, hat, attemptYields]
      · have hint : interrupted = true := by
          rw [hat] at h0
          simpa [retryableAttempt] using h0
        subst hint
        simp only [generateStreamAux, hat]
        rw [if_pos trivial, if_neg hmax]
        simp [yieldsRange, hat, attemptYields]
  | succ k ih =>
    intro a fuel hr ha hfuel
    cases fuel with
    | zero => omega
    | succ fuel =>
      have h0 : retryableAttempt (attempts a) = true := by
        have := hr 0 (by omega)
        simpa using this
      have halt : a < MAX_RETRIES := by omega
      rcases hat : attempts a with code | ⟨frags0, interrupted⟩
      · have hmem : code ∈ _RETRYABLE_STATUS := by
          rw [hat] at h0
          simpa [retryableAttempt] using h0
        have hrec := ih (a + 1) fuel
          (fun i hi => by
            have := hr (i + 1) (by omega)
            rwa [show a + (i + 1) = a + 1 + i by omega] at this)
          (by omega) (by omega)
        simp only [generateStreamAux, hat]
        rw [if_pos ⟨hmem, halt⟩, hrec]
        simp [yieldsRange, hat, attemptYields]
      · have hint : interrupted = true := by
          rw [hat] at h0
          simpa [retryableAttempt] using h0
        subst hint
        have hrec := ih (a + 1) fuel
          (fun i hi => by
            have := hr (i + 1) (by omega)
            rwa [show a + (i + 1) = a + 1 + i by omega] at this)
          (by omega) (by omega)
        simp only [generateStreamAux, hat]
        rw [if_pos trivial, if_pos halt, hrec]
        simp [yieldsRange, hat, attemptYields]

/-! ### Claim C5 -/

/-- Attempt schedule for the C5 counterexample: attempt 0 yields the
fragment `"a"` and is then interrupted by a read error; attempt 1 yields
`"a"` and `"b"` and completes. -/
def c5Attempts : Nat → StreamAttempt := fun n =>
  if n = 0 then .streamed ["a".toList] true
  else .streamed ["a".toList, "b".toList] false

/-- **C5, counterexample.** A transient failure *after* the first fragment
was yielded *is* retried: the stream restarts, completes successfully
(it does not terminate with an error), and the fragment `"a"` is yielded
twice. -/
theorem c5_counterexample :
    generateStream c5Attempts = (["a".toList, "a".toList, "b".toList], .completed)
      ∧ (generateStream c5Attempts).1.count "a".toList = 2 := by
  refine ⟨by decide, by decide⟩

/-- **C5, amended.** `generate_stream` applies the retry policy to every
transient failure — retryable HTTP status before any line, or a
connection/read error at any point of the stream — regardless of whether
fragments have already been yielded, up to `MAX_RETRIES` extra attempts;
each retry restarts the stream from the beginning, so the overall output
is the concatenation of all attempts' yields (fragments can repeat).
When some attempt completes the stream ends normally; when all
`MAX_RETRIES + 1` attempts fail transiently it ends with an error after
yielding every attempt's fragments. -/
theorem c5_retry_restarts_stream :
    (∀ (attempts : Nat → StreamAttempt) (k : Nat) (frags : List (List Char)),
        k ≤ MAX_RETRIES →
        (∀ i, i < k → retryableAttempt (attempts i) = true) →
        attempts k = .streamed frags false →
        generateStream attempts = (yieldsRange attempts 0 k ++ frags, .completed))
      ∧ (∀ attempts : Nat → StreamAttempt,
          (∀ i, i ≤ MAX_RETRIES → retryableAttempt (attempts i) = true) →
          generateStream attempts
            = (yieldsRange attempts 0 (MAX_RETRIES + 1), .failed)) := by
  constructor
  · intro attempts k frags hk hr hks
    exact genStreamAux_success attempts k 0 (MAX_RETRIES + 1) frags
      (fun i hi => by simpa using hr i hi) (by simpa using hks) (by omega) (by omega)
  · intro attempts hr
    exact genStreamAux_fail attempts MAX_RETRIES 0 (MAX_RETRIES + 1)
      (fun i hi => by simpa using hr i hi) (by omega) (by omega)

/-- Attempt schedule where every attempt is interrupted mid-stream. -/
def c5AllFail : Nat → StreamAttempt := fun _ => .streamed ["x".toList] true

/-- **C5, witness.** Both parts of the amended claim at concrete attempt
schedules: the counterexample schedule completes after one retry with the
retried attempt's yields appended; the always-interrupted schedule yields
three times and fails. -/
theorem c5_retry_restarts_stream_witness :
    generateStream c5Attempts
        = (yieldsRange c5Attempts 0 1 ++ ["a".toList, "b".toList], .completed)
      ∧ generateStream c5AllFail = (yieldsRange c5AllFail 0 3, .failed)
      ∧ yieldsRange c5AllFail 0 3 = ["x".toList, "x".toList, "x".toList] := by
  refine ⟨?_, ?_, by decide⟩
  · exact c5_retry_restarts_stream.1 c5Attempts 1 ["a".toList, "b".toList]
      (by decide)
      (fun i hi => by
        have h0 : i = 0 := by omega
        subst h0
        decide)
      (by decide)
  · exact c5_retry_restarts_stream.2 c5AllFail (fun i _ => rfl)

/-! ### Streaming pipeline with cooperative cancellation

The cancellation flag is modelled as `flag : Nat → Bool`, the value
`cancel_event.is_set()` returns at the `i`-th check of the loop in
question (the flag of a real run is monotone; the theorems only use the
readings up to the first `true`). -/

/-- `produce_sentences` in `process_voice_stream`: for each token, first
check the cancellation flag (`return` immediately when set — skipping the
flush and the `None` sentinel), otherwise feed the token to the
`SentenceBuffer` and forward each emitted sentence; after the token
stream is exhausted, forward the flush remainder and the sentinel.
The result is the sequence of queue items the producer enqueues. -/
def produceSentences (buf : List Char) (tokens : List (List Char))
    (flag : Nat → Bool) (i : Nat) : List (Option (List Char)) :=
  match tokens with
  | [] =>
    match (SentenceBuffer.flush buf).1 with
    | some r => [some r, none]
    | none => [none]
  | t :: rest =>
    if flag i then []
    else
      let r := SentenceBuffer.add buf t
      r.1.map some ++ produceSentences r.2 rest flag (i + 1)

/-- `consume_sentences` in `process_voice_stream`: dequeue; stop on the
`None` sentinel; stop when the cancellation flag is set; otherwise start a
synthesis call for the sentence.  The result is the sequence of sentences
for which a synthesis call is started. -/
def consumeSentences (queue : List (Option (List Char)))
    (flag : Nat → Bool) (i : Nat) : List (List Char)  :=
  match queue with
  | [] => []
  | none :: _ => []
  | some s :: rest =>
    if flag i then []
    else s :: consumeSentences rest flag (i + 1)

/-- The word loop of the direct page-read branch of
`process_voice_stream`: for each word of the page text, first check the
cancellation flag (`break` when set), otherwise feed `word + " "` to the
`SentenceBuffer` and synthesize each emitted sentence.  Returns the
sentences synthesized inside the loop and the final buffer. -/
def directPageReadLoop (buf : List Char) (words : List (List Char))
    (flag : Nat → Bool) (i : Nat) : List (List Char) × List Char :=
  match words with
  | [] => ([], buf)
  | w :: rest =>
    if flag i then ([], buf)
    else
      let r := SentenceBuffer.add buf (w ++ [' '])
      let r2 := directPageReadLoop r.2 rest flag (i + 1)
      (r.1 ++ r2.1, r2.2)

/-- The full direct page-read synthesis sequence: the loop's sentences,
then — unconditionally, whether or not the loop was left by
cancellation — the flush remainder, if nonempty, is synthesized too. -/
def directPageReadSynths (words : List (List Char)) (flag : Nat → Bool) :
    List (List Char) :=
  let r := directPageReadLoop [] words flag 0
  match (SentenceBuffer.flush r.2).1 with
  | some rem => r.1 ++ [rem]
  | none => r.1

/-- Python `str.split()`: split on whitespace runs, dropping empties. -/
def pySplitWsAux : List Char → List Char → List (List Char)
  | [], acc => if acc = [] then [] else [acc.reverse]
  | c :: rest, acc =>
    if isPyWs c then
      if acc = [] then pySplitWsAux rest []
      else acc.reverse :: pySplitWsAux rest []
    else pySplitWsAux rest (c :: acc)

def pySplitWs (l : List Char) : List (List Char) :=
  pySplitWsAux l []

theorem produceSentences_cancel :
    ∀ (j : Nat) (tokens : List (List Char)) (buf : List Char)
      (flag : Nat → Bool) (i : Nat),
      j < tokens.length →
      (∀ m, m < j → flag (i + m) = false) →
      flag (i + j) = true →
      produceSentences buf tokens flag i = ((runAdds buf (tokens.take j)).1).map some := by
  intro j
  induction j with
  | zero =>
    intro tokens buf flag i hlen hflags hj
    cases tokens with
    | nil => simp at hlen
    | cons t rest =>
      rw [Nat.add_zero] at hj
      simp only [produceSentences, if_pos hj]
      simp [runAdds]
  | succ j ih =>
    intro tokens buf flag i hlen hflags hj
    cases tokens with
    | nil => simp at hlen
    | cons t rest =>
      have h0 : flag i = false := by
        have := hflags 0 (by omega)
        simpa using this
      simp only [produceSentences, h0, Bool.false_eq_true, if_false]
      have hrec := ih rest (SentenceBuffer.add buf t).2 flag (i + 1)
        (by simpa using hlen)
        (fun m hm => by
          have := hflags (m + 1) (by omega)
          rwa [show i + (m + 1) = i + 1 + m by omega] at this)
        (by rwa [show i + (j + 1) = i + 1 + j by omega] at hj)
      rw [hrec]
      simp [runAdds, List.take_cons]

theorem consumeSentences_cancel :
    ∀ (j : Nat) (queue : List (Option (List Char))) (flag : Nat → Bool) (i : Nat),
      (∀ m, m < j → flag (i + m) = false) →
      flag (i + j) = true →
      consumeSentences queue flag i = consumeSentences (queue.take j) flag i := by
  intro j
  induction j with
  | zero =>
    intro queue flag i hflags hj
    rw [Nat.add_zero] at hj
    cases queue with
    | nil => rfl
    | cons q rest =>
      cases q with
      | none => simp [consumeSentences]
      | some s => simp [consumeSentences, hj]
  | succ j ih =>
    intro queue flag i hflags hj
    cases queue with
    | nil => rfl
    | cons q rest =>
      cases q with
      | none => simp [consumeSentences]
      | some s =>
        have h0 : flag i = false := by
          have := hflags 0 (by omega)
          simpa using this
        simp only [List.take_succ_cons, consumeSentences, h0, Bool.false_eq_true, if_false]
        congr 1
        exact ih rest flag (i + 1)
          (fun m hm => by
            have := hflags (m + 1) (by omega)
            rwa [show i + (m + 1) = i + 1 + m by omega] at this)
          (by rwa [show i + (j + 1) = i + 1 + j by omega] at hj)

theorem directPageReadLoop_cancel :
    ∀ (j : Nat) (words : List (List Char)) (buf : List Char)
      (flag : Nat → Bool) (i : Nat),
      j < words.length →
      (∀ m, m < j → flag (i + m) = false) →
      flag (i + j) = true →
      directPageReadLoop buf words flag i
        = runAdds buf ((words.take j).map (fun w => w ++ [' '])) := by
  intro j
  induction j with
  | zero =>
    intro words buf flag i hlen hflags hj
    cases words with
    | nil => simp at hlen
    | cons w rest =>
      rw [Nat.add_zero] at hj
      simp only [directPageReadLoop, if_pos hj]
      simp [runAdds]
  | succ j ih =>
    intro words buf flag i hlen hflags hj
    cases words with
    | nil => simp at hlen
    | cons w rest =>
      have h0 : flag i = false := by
        have := hflags 0 (by omega)
        simpa using this
      simp only [directPageReadLoop, h0, Bool.false_eq_true, if_false]
      have hrec := ih rest (SentenceBuffer.add buf (w ++ [' '])).2 flag (i + 1)
        (by simpa using hlen)
        (fun m hm => by
          have := hflags (m + 1) (by omega)
          rwa [show i + (m + 1) = i + 1 + m by omega] at this)
        (by rwa [show i + (j + 1) = i + 1 + j by omega] at hj)
      rw [hrec]
      simp [runAdds, List.take_cons]

/-! ### Claim C2 -/

/-- A cancellation flag first observed set at check 1. -/
def c2Flag : Nat → Bool := fun i => decide (1 ≤ i)

/-- **C2, counterexample.** In the direct page-read path, cancellation is
observed at the second check (after `"Hello "` was buffered but before any
sentence was emitted), the loop forwards nothing — yet one synthesis call
still starts afterwards, for the flush remainder `"Hello"`.  So after the
flag is observed a further synthesis call *is* started. -/
theorem c2_counterexample :
    c2Flag 0 = false ∧ c2Flag 1 = true
      ∧ directPageReadLoop [] (pySplitWs "Hello world".toList) c2Flag 0
        = ([], "Hello ".toList)
      ∧ directPageReadSynths (pySplitWs "Hello world".toList) c2Flag
        = ["Hello".toList] := by
  refine ⟨rfl, rfl, by decide, by decide⟩

/-- **C2, amended.** Once the cancellation flag is observed at a check
point: the producer of the normal LLM-stream path forwards nothing
further — the queue receives exactly the sentences produced from the
tokens read before the observation, with no flush remainder and no
sentinel; the consumer synthesizes nothing further — only sentences
dequeued before the observation; and in the direct page-read path the
word loop stops feeding, but the flush remainder of the text buffered
before cancellation, when nonempty, is still synthesized after the
cancellation was observed. -/
theorem c2_cancellation (tokens words : List (List Char))
    (queue : List (Option (List Char))) (flag : Nat → Bool) (j : Nat)
    (hflags : ∀ m, m < j → flag m = false) (hj : flag j = true) :
    (j < tokens.length →
        produceSentences [] tokens flag 0 = ((runAdds [] (tokens.take j)).1).map some)
      ∧ consumeSentences queue flag 0 = consumeSentences (queue.take j) flag 0
      ∧ (j < words.length →
          directPageReadSynths words flag
            = (runAdds [] ((words.take j).map (fun w => w ++ [' ']))).1
              ++ ((SentenceBuffer.flush
                    (runAdds [] ((words.take j).map (fun w => w ++ [' ']))).2).1).toList) := by
  refine ⟨?_, ?_, ?_⟩
  · intro hlen
    exact produceSentences_cancel j tokens [] flag 0 hlen
      (fun m hm => by simpa using hflags m hm) (by simpa using hj)
  · exact consumeSentences_cancel j queue flag 0
      (fun m hm => by simpa using hflags m hm) (by simpa using hj)
  · intro hlen
    have hloop := directPageReadLoop_cancel j words [] flag 0 hlen
      (fun m hm => by simpa using hflags m hm) (by simpa using hj)
    rw [directPageReadSynths, hloop]
    rcases hfl : (SentenceBuffer.flush
        (runAdds [] ((words.take j).map (fun w => w ++ [' ']))).2).1 with _ | rem
    · simp [hfl]
    · simp [hfl]

/-- Concrete inputs for the C2 witness: two tokens, a three-item queue,
two words, cancellation observed at check 1. -/
def c2Tokens : List (List Char) :=
  ["This is the first sentence. And".toList, " then more".toList]

def c2Queue : List (Option (List Char)) :=
  [some "s1".toList, some "s2".toList, none]

/-- **C2, witness.** The amended claim at concrete inputs: the producer
forwards only the sentence completed before the observation, the consumer
synthesizes only the first queue item, and the direct path synthesizes the
flush remainder of the single word fed before the observation. -/
theorem c2_cancellation_witness :
    produceSentences [] c2Tokens c2Flag 0
        = ((runAdds [] (c2Tokens.take 1)).1).map some
      ∧ consumeSentences c2Queue c2Flag 0 = consumeSentences (c2Queue.take 1) c2Flag 0
      ∧ directPageReadSynths (pySplitWs "Hello world".toList) c2Flag
        = (runAdds [] (((pySplitWs "Hello world".toList).take 1).map (fun w => w ++ [' ']))).1
          ++ ((SentenceBuffer.flush
                (runAdds [] (((pySplitWs "Hello world".toList).take 1).map
                  (fun w => w ++ [' ']))).2).1).toList := by
  have h := c2_cancellation c2Tokens (pySplitWs "Hello world".toList) c2Queue c2Flag 1
    (fun m hm => by
      have : m = 0 := by omega
      subst this
      rfl)
    rfl
  exact ⟨h.1 (by decide), h.2.1, h.2.2 (by decide)⟩

/-! ### The orchestrator and its collaborators

The external collaborators (STT, LLM, TTS, retrieval store, session
record) are abstract functions in an environment record; the orchestrator
methods are pure functions of that environment.  Result records carry, in
addition to the returned dict fields, the effect-tracking flags
`llm_called` / `build_context_called` / `tts_called` (whether the LLM,
`_build_context`, or any synthesis was invoked), the list of timing keys
recorded, and the conversation history after the call. -/

/-- One entry of `rag_service.list_documents(session_id)`. -/
structure DocMeta where
  doc_id : String
  filename : String
  page_count : Nat
deriving DecidableEq

/-- The dict `rag_service.get_page(doc_id, page_number)` returns. -/
structure PageData where
  doc_id : String
  filename : String
  text : List Char
deriving DecidableEq

structure OrchEnv where
  sessionDocs : List DocMeta
  getPage : String → Nat → Option PageData
  ragEnabled : Bool
  retrievePages : String → List Chunk
  retrieveChunks : String → List Chunk
  retrieveConvs : String → List (List Char)
  generate : String → List Char → List Char
  generateTokens : String → List Char → List (List Char)
  transcribe : List Nat → String

/-- The no-hint / fallback document resolution of
`PipelineOrchestrator._fetch_page`: the sole session document if there is
exactly one, else the first document with at least one page. -/
def fetchNoHint (docs : List DocMeta) : Option DocMeta :=
  match docs with
  | [d] => some d
  | _ => docs.find? (fun d => decide (0 < d.page_count))

/-- `PipelineOrchestrator._fetch_page`: resolve the target document (by
case-insensitive substring match of the hint against filenames when a
truthy hint is given, with fallback to the first document with pages),
fetch the page, and return the labelled context plus a one-element source
list.  Python's `if doc_hint:` treats `None` and `""` alike. -/
def fetch_page (env : OrchEnv) (page_num : Nat) (doc_hint : Option String) :
    Option (List Char × List Source) :=
  if env.sessionDocs = [] then none
  else
    let target_doc :=
      match doc_hint with
      | some hint =>
        if hint = "" then fetchNoHint env.sessionDocs
        else
          let hint_lower := hint.toList.map Char.toLower
          match env.sessionDocs.find?
              (fun (d : DocMeta) =>
                decide (hint_lower <:+: d.filename.toList.map Char.toLower)) with
          | some d => some d
          | none => env.sessionDocs.find? (fun d => decide (0 < d.page_count))
      | none => fetchNoHint env.sessionDocs
    match target_doc with
    | none => none
    | some doc =>
      match env.getPage doc.doc_id page_num with
      | none => none
      | some page =>
        let context := ("[Full page " ++ toString page_num ++ " from "
            ++ page.filename ++ "]").toList ++ ['\n'] ++ page.text
        some (context,
          [{ filename := page.filename, page_number := some (page_num : Int),
             doc_id := page.doc_id }])

/-- `page_text.split("\n", 1)[1]`: everything after the first newline. -/
def dropThroughFirstNl (l : List Char) : List Char :=
  (l.dropWhile (fun c => !(c = '\n'))).drop 1

/-- The dict `_try_direct_page_read` returns on success. -/
structure DirectResult where
  text : List Char
  sources : List Source
deriving DecidableEq

/-- `PipelineOrchestrator._try_direct_page_read`: detect a page request,
fetch the page, and strip the `[Full page …]` label line.  Reads no
session state other than the document store — in particular not the
retrieval-enabled flag. -/
def try_direct_page_read (env : OrchEnv) (query : String) : Option DirectResult :=
  match detect_page_request query with
  | none => none
  | some (page_num, doc_hint) =>
    match fetch_page env page_num doc_hint with
    | none => none
    | some (page_text, sources) =>
      let text := if page_text.contains '\n' then dropThroughFirstNl page_text
        else page_text
      some { text := text, sources := sources }

/-- `"\n---\n".join(...)` / `"\n\n".join(...)`. -/
def joinSep (sep : List Char) : List (List Char) → List Char
  | [] => []
  | [x] => x
  | x :: y :: rest => x ++ sep ++ joinSep sep (y :: rest)

/-- The `[Source: …]` label and passage text of one document chunk. -/
def chunkPart (ch : Chunk) : List Char :=
  ("[Source: " ++ ch.filename
    ++ (if 0 ≤ ch.page_number then ", page " ++ toString ch.page_number else "")
    ++ "]").toList ++ ['\n'] ++ ch.text.toList

/-- `PipelineOrchestrator._build_context`: empty when retrieval is
disabled for the conversation; otherwise page-level retrieval with
chunk-level fallback, conversation recall, labelled sections, and the
deduplicated source list. -/
def build_context (env : OrchEnv) (query : String) : List Char × List Source :=
  if env.ragEnabled = false then ([], [])
  else
    let page_results := env.retrievePages query
    let doc_results := if page_results = [] then env.retrieveChunks query else page_results
    let conv_chunks := env.retrieveConvs query
    let doc_parts := doc_results.map chunkPart
    let sources := buildSourcesAux doc_results [] []
    let parts :=
      (if doc_results = [] then []
        else [("Document context:\n".toList ++ joinSep "\n---\n".toList doc_parts)])
      ++ (if conv_chunks = [] then []
        else [("Previous conversations:\n".toList ++ joinSep "\n---\n".toList conv_chunks)])
    (joinSep "\n\n".toList parts, sources)

/-- Result of `process_text`. -/
structure TextResult where
  response : List Char
  sources : List Source
  timings : List String
  llm_called : Bool
  build_context_called : Bool
  history_out : List (String × List Char)
deriving DecidableEq

/-- `PipelineOrchestrator.process_text`: direct page read bypasses
retrieval and generation; otherwise build context and generate; then
append the user/assistant turn pair. -/
def process_text (env : OrchEnv) (history : List (String × List Char))
    (message : String) : TextResult :=
  match try_direct_page_read env message with
  | some d =>
    { response := d.text, sources := d.sources, timings := ["rag_ms", "llm_ms"],
      llm_called := false, build_context_called := false,
      history_out := history ++ [("user", message.toList), ("assistant", d.text)] }
  | none =>
    let cs := build_context env message
    let response := env.generate message cs.1
    { response := response, sources := cs.2, timings := ["rag_ms", "llm_ms"],
      llm_called := true, build_context_called := true,
      history_out := history ++ [("user", message.toList), ("assistant", response)] }

/-- Result of `process_text_stream` (`yielded` is the sequence of chunks
the async generator yields). -/
structure TextStreamResult where
  yielded : List (List Char)
  llm_called : Bool
  build_context_called : Bool
  history_out : List (String × List Char)
deriving DecidableEq

/-- `PipelineOrchestrator.process_text_stream`: the direct page read is
yielded as one chunk; otherwise the generation tokens are passed through;
history is updated after streaming completes. -/
def process_text_stream (env : OrchEnv) (history : List (String × List Char))
    (message : String) : TextStreamResult :=
  match try_direct_page_read env message with
  | some d =>
    { yielded := [d.text], llm_called := false, build_context_called := false,
      history_out := history ++ [("user", message.toList), ("assistant", d.text)] }
  | none =>
    let cs := build_context env message
    let tokens := env.generateTokens message cs.1
    { yielded := tokens, llm_called := true, build_context_called := true,
      history_out := history ++ [("user", message.toList), ("assistant", tokens.flatten)] }

/-- Result of `process_voice` / `process_voice_stream`. -/
structure VoiceResult where
  transcript : String
  response_text : List Char
  sources : List Source
  timings : List String
  llm_called : Bool
  build_context_called : Bool
  tts_called : Bool
  history_out : List (String × List Char)
deriving DecidableEq

/-- `PipelineOrchestrator.process_voice`: transcribe; return immediately
on a blank transcript with only the STT timing recorded; otherwise direct
page read or retrieval + generation, then synthesis and history update. -/
def process_voice (env : OrchEnv) (history : List (String × List Char))
    (audio : List Nat) : VoiceResult :=
  let transcript := env.transcribe audio
  if pyStrip transcript.toList = [] then
    { transcript := "", response_text := [], sources := [], timings := ["stt_ms"],
      llm_called := false, build_context_called := false, tts_called := false,
      history_out := history }
  else
    match try_direct_page_read env transcript with
    | some d =>
      { transcript := transcript, response_text := d.text, sources := d.sources,
        timings := ["stt_ms", "rag_ms", "llm_ms", "tts_ms"],
        llm_called := false, build_context_called := false, tts_called := true,
        history_out := history ++ [("user", transcript.toList), ("assistant", d.text)] }
    | none =>
      let cs := build_context env transcript
      let response := env.generate transcript cs.1
      { transcript := transcript, response_text := response, sources := cs.2,
        timings := ["stt_ms", "rag_ms", "llm_ms", "tts_ms"],
        llm_called := true, build_context_called := true, tts_called := true,
        history_out := history ++ [("user", transcript.toList), ("assistant", response)] }

/-- `PipelineOrchestrator.process_voice_stream` without cancellation
(`cancel_event = None`, modelled by the all-`false` flag): blank-transcript
early return; direct page read fed word-by-word through the
`SentenceBuffer` to synthesis; otherwise the produce/consume pipeline over
the generation tokens.  (The conditionally recorded first-token /
first-chunk timing keys are not modelled; the key list carries the keys
recorded unconditionally on each path.) -/
def process_voice_stream (env : OrchEnv) (history : List (String × List Char))
    (audio : List Nat) : VoiceResult :=
  let transcript := env.transcribe audio
  if pyStrip transcript.toList = [] then
    { transcript := "", response_text := [], sources := [], timings := ["stt_ms"],
      llm_called := false, build_context_called := false, tts_called := false,
      history_out := history }
  else
    match try_direct_page_read env transcript with
    | some d =>
      let synths := directPageReadSynths (pySplitWs d.text) (fun _ => false)
      { transcript := transcript, response_text := d.text, sources := d.sources,
        timings := ["stt_ms", "rag_ms", "llm_ms", "tts_first_chunk_ms", "tts_chunks"],
        llm_called := false, build_context_called := false,
        tts_called := !(synths = []),
        history_out := history ++ [("user", transcript.toList), ("assistant", d.text)] }
    | none =>
      let cs := build_context env transcript
      let tokens := env.generateTokens transcript cs.1
      let synths := consumeSentences
        (produceSentences [] tokens (fun _ => false) 0) (fun _ => false) 0
      { transcript := transcript, response_text := tokens.flatten, sources := cs.2,
        timings := ["stt_ms", "rag_ms", "llm_ms", "tts_chunks"],
        llm_called := true, build_context_called := true,
        tts_called := !(synths = []),
        history_out := history
          ++ [("user", transcript.toList), ("assistant", tokens.flatten)] }

/-! ### Claim C9 -/

/-- **C9.** The direct page-read bypass is independent of the
conversation's retrieval-enabled flag: `_try_direct_page_read` gives the
same result for any value of the flag; the flag is consulted (only) inside
`_build_context`, which returns empty context and no sources when it is
off; and whenever the query resolves to a stored page, all four process
variants return the page text as the answer with generation skipped and
the page citation as the sources. -/
theorem c9_direct_read_ignores_rag_flag :
    (∀ (env : OrchEnv) (b : Bool) (q : String),
        try_direct_page_read { env with ragEnabled := b } q
          = try_direct_page_read env q)
      ∧ (∀ (env : OrchEnv) (q : String), env.ragEnabled = false →
          build_context env q = ([], []))
      ∧ ∀ (env : OrchEnv) (history : List (String × List Char)) (audio : List Nat)
          (msg : String) (d : DirectResult),
          try_direct_page_read env msg = some d →
          ((process_text env history msg).response = d.text
              ∧ (process_text env history msg).llm_called = false
              ∧ (process_text env history msg).sources = d.sources)
            ∧ ((process_text_stream env history msg).yielded = [d.text]
              ∧ (process_text_stream env history msg).llm_called = false)
            ∧ (env.transcribe audio = msg → pyStrip msg.toList ≠ [] →
                ((process_voice env history audio).response_text = d.text
                    ∧ (process_voice env history audio).llm_called = false
                    ∧ (process_voice env history audio).sources = d.sources)
                  ∧ ((process_voice_stream env history audio).response_text = d.text
                    ∧ (process_voice_stream env history audio).llm_called = false
                    ∧ (process_voice_stream env history audio).sources = d.sources)) := by
  refine ⟨fun env b q => rfl, fun env q h => by simp [build_context, h], ?_⟩
  intro env history audio msg d hd
  refine ⟨?_, ?_, ?_⟩
  · simp [process_text, hd]
  · simp [process_text_stream, hd]
  · intro htr hne
    rw [← htr] at hne hd
    simp only [String.toList] at hne
    constructor
    · simp [process_voice, hne, hd]
    · simp [process_voice_stream, hne, hd]

/-- Concrete environment for the C9/C10 witnesses: one session document
with pages, page 1 of text `"Hello world"`, retrieval disabled,
transcription fixed to `"read page 1"`. -/
def c9Env : OrchEnv :=
  { sessionDocs := [{ doc_id := "doc1", filename := "manual.pdf", page_count := 3 }]
    getPage := fun d n =>
      if d = "doc1" && n = 1 then
        some { doc_id := "doc1", filename := "manual.pdf", text := "Hello world".toList }
      else none
    ragEnabled := false
    retrievePages := fun _ => []
    retrieveChunks := fun _ => []
    retrieveConvs := fun _ => []
    generate := fun _ _ => "generated".toList
    generateTokens := fun _ _ => []
    transcribe := fun _ => "read page 1" }

/-- The direct result the bypass produces in `c9Env`. -/
def c9Direct : DirectResult :=
  { text := "Hello world".toList
    sources := [{ filename := "manual.pdf", page_number := some 1, doc_id := "doc1" }] }

/-- **C9, witness.** With retrieval disabled, `"read page 1"` resolves to
the stored page, and both text and voice variants answer with the raw page
text without calling the LLM. -/
theorem c9_direct_read_ignores_rag_flag_witness :
    try_direct_page_read c9Env "read page 1" = some c9Direct
      ∧ c9Env.ragEnabled = false
      ∧ (process_text c9Env [] "read page 1").response = c9Direct.text
      ∧ (process_text c9Env [] "read page 1").llm_called = false
      ∧ (process_text_stream c9Env [] "read page 1").yielded = [c9Direct.text]
      ∧ (process_voice c9Env [] [0]).response_text = c9Direct.text
      ∧ (process_voice c9Env [] [0]).llm_called = false
      ∧ (process_voice_stream c9Env [] [0]).response_text = c9Direct.text
      ∧ (process_voice_stream c9Env [] [0]).llm_called = false := by
  have h := c9_direct_read_ignores_rag_flag.2.2 c9Env [] [0] "read page 1" c9Direct
    (by decide)
  have hv := h.2.2 rfl (by decide)
  exact ⟨by decide, rfl, h.1.1, h.1.2.1, h.2.1.1, hv.1.1, hv.1.2.1, hv.2.1, hv.2.2.1⟩

/-! ### Claim C10 -/

/-- **C10.** When transcription returns empty or whitespace-only text,
both voice variants return immediately: empty transcript, empty response,
no sources, only the `stt_ms` timing recorded, no retrieval
(`_build_context`), generation or synthesis attempted, and the
conversation history unchanged. -/
theorem c10_blank_transcript_early_return (env : OrchEnv)
    (history : List (String × List Char)) (audio : List Nat)
    (h : pyStrip (env.transcribe audio).toList = []) :
    process_voice env history audio
        = { transcript := "", response_text := [], sources := [],
            timings := ["stt_ms"], llm_called := false,
            build_context_called := false, tts_called := false,
            history_out := history }
      ∧ process_voice_stream env history audio
        = { transcript := "", response_text := [], sources := [],
            timings := ["stt_ms"], llm_called := false,
            build_context_called := false, tts_called := false,
            history_out := history } := by
  constructor
  · simp only [process_voice, if_pos h]
  · simp only [process_voice_stream, if_pos h]

/-- Environment whose transcription returns whitespace only. -/
def c10Env : OrchEnv := { c9Env with transcribe := fun _ => "   " }

/-- **C10, witness.** The early return on a whitespace-only transcript. -/
theorem c10_blank_transcript_early_return_witness :
    process_voice c10Env [("user", "earlier".toList)] [7]
        = { transcript := "", response_text := [], sources := [],
            timings := ["stt_ms"], llm_called := false,
            build_context_called := false, tts_called := false,
            history_out := [("user", "earlier".toList)] }
      ∧ process_voice_stream c10Env [("user", "earlier".toList)] [7]
        = { transcript := "", response_text := [], sources := [],
            timings := ["stt_ms"], llm_called := false,
            build_context_called := false, tts_called := false,
            history_out := [("user", "earlier".toList)] } :=
  c10_blank_transcript_early_return c10Env [("user", "earlier".toList)] [7] (by decide)

end VoiceRag
